import Mathlib

/-!
# Verification of the Chess-Analyzer opening-tree generator

Shallow embedding of the core of `src/main.py`:

* `estimate_total_moves` / `count_nodes` — the progress estimator;
* `generate_move_tree` — the recursive move-tree builder, with the engine,
  board legality/push and the progress bar abstracted into a context `Ctx`;
* `add_moves_to_pgn` — the record emitter onto PGN nodes.

Python boards are mutable objects; in the code every move application happens
on `position.copy()`, so the primary embedding treats positions as immutable
values (`copy` is the identity on values).  A second, store-based embedding
(`gmtSt`) keeps the Python object semantics explicit — boards live at indices
of a store, `copy` appends a fresh cell and `push` mutates a cell in place —
and is used to prove that the builder never mutates the board it was given.

Exceptions: `engine.analyse` may raise `chess.engine.EngineError`; the code
catches it, prints, and calls `exit(1)` (raising `SystemExit`).  The ways a
call can unwind are modelled by `Abort`: either a `SystemExit` with an exit
code, or an exception propagating uncaught (`raised`).  The builder itself
only ever produces `Abort.exit 1`.
-/

set_option autoImplicit false

namespace ChessAnalyzer

variable {P M B : Type}

/-- The engine boundary may hand back a single analysis object instead of a
list (`if not isinstance(analyses, list)`)... -/
inductive EngineRet (A : Type) where
  | single (a : A)
  | many (l : List A)

/-- `if not isinstance(analyses, list): analyses = [analyses]` (main.py:114-115). -/
def normalizeRet {A : Type} : EngineRet A → List A
  | EngineRet.single a => [a]
  | EngineRet.many l => l

/-- One entry of the nested-list move tree built by `generate_move_tree`:
the Python pair `(move, subsequent_moves)`. -/
inductive MTree (M : Type) where
  | mk (move : M) (subs : List (MTree M)) : MTree M

def mtMove : MTree M → M
  | MTree.mk m _ => m

def mtSubs : MTree M → List (MTree M)
  | MTree.mk _ s => s

/-- A PGN game node: its ordered list of variations, each a move labelling the
edge to a child node.  python-chess's `add_main_variation` inserts at index 0,
`add_variation` appends at the end. -/
inductive PGNNode (M : Type) where
  | mk (children : List (M × PGNNode M)) : PGNNode M

/-- How a call into the builder can unwind abnormally: `exit code` models
`SystemExit` raised by `exit(code)`; `raised e` models an exception object `e`
propagating uncaught. -/
inductive Abort where
  | exit (code : Nat)
  | raised (e : String)
deriving DecidableEq

/-- The collaborators `generate_move_tree` uses, abstracted: the board value
(side to move via `turn`, with `chess.WHITE = True`), legality checking,
move application (`Board.push`, here value-level since the code always pushes
on a copy), and the engine's `analyse`, which either returns ranked analyses
(each carrying an optional principal variation under key `'pv'`) or raises
`chess.engine.EngineError` (modelled as `Except.error msg`). -/
structure Ctx (P M : Type) where
  turn : P → Bool
  is_legal : P → M → Bool
  push : P → M → P
  analyse : P → Nat → Nat → Except String (EngineRet (Option (List M)))

/-- `multipv = 1 if position.turn == chess.WHITE else 3` (main.py:105). -/
def mpv (c : Ctx P M) (position : P) : Nat :=
  if c.turn position = true then 1 else 3

/-- The inner validation loop of `generate_move_tree` (main.py:121-129):
walks the principal variation on the disposable board copy, appending each
legal move and pushing it; on the first illegal move it sets `legal_pv = []`
and breaks. -/
def pvLoop (c : Ctx P M) : P → List M → List M → List M
  | _, legal_pv, [] => legal_pv
  | board_copy, legal_pv, m :: rest =>
    if c.is_legal board_copy m then
      pvLoop c (c.push board_copy m) (legal_pv ++ [m]) rest
    else []

/-- The principal-variation validator: the slice of the loop body at
main.py:118-133 that decides whether a candidate contributes its first move.
`analysis.get('pv')` may be absent (`none`) and `if pv:` is also false on an
empty list; otherwise the validation loop runs and `legal_pv[0]` is taken
exactly when `legal_pv` is nonempty. -/
def validateFirstMove (c : Ctx P M) (position : P) (pv : Option (List M)) : Option M :=
  match pv with
  | none => none
  | some l =>
    if l.isEmpty then none
    else
      match pvLoop c position [] l with
      | [] => none
      | mv :: _ => some mv

/-- The `for analysis in analyses:` loop of `generate_move_tree`
(main.py:117-143), with the recursive call abstracted as `recurse`.
For each analysis: if its pv validates, apply the first move to a copy of
`position`, recurse, and append `(move, subsequent_moves)`; then
`progress_bar.update(1)` when a bar is present (`hb`).  The returned `Nat`
counts the `update(1)` calls.  An abort from a recursive call propagates
out of the loop at once. -/
def gmtLoop (c : Ctx P M) (hb : Bool)
    (recurse : P → Except Abort (List (MTree M) × Nat)) (position : P) :
    List (Option (List M)) → Except Abort (List (MTree M) × Nat)
  | [] => Except.ok ([], 0)
  | a :: rest =>
    let step : Except Abort (List (MTree M) × Nat) :=
      match validateFirstMove c position a with
      | none => Except.ok ([], 0)
      | some mv =>
        match recurse (c.push position mv) with
        | Except.error e => Except.error e
        | Except.ok (subs, cnt) => Except.ok ([MTree.mk mv subs], cnt)
    match step with
    | Except.error e => Except.error e
    | Except.ok (entries, subCnt) =>
      match gmtLoop c hb recurse position rest with
      | Except.error e => Except.error e
      | Except.ok (restEntries, restCnt) =>
        Except.ok (entries ++ restEntries, subCnt + (if hb then 1 else 0) + restCnt)

/-- `generate_move_tree` (main.py:96-145).  `hb` is whether a progress bar was
passed; `ed` is `engine_analysis_depth`.  On `EngineError` the code prints and
calls `exit(1)` — modelled as `Except.error (Abort.exit 1)`.  The result pairs
the nested move tree with the number of progress-bar updates performed. -/
def generate_move_tree (c : Ctx P M) (hb : Bool) (ed : Nat) :
    Nat → P → Except Abort (List (MTree M) × Nat)
  | 0, _ => Except.ok ([], 0)
  | pgn_depth + 1, position =>
    match c.analyse position ed (mpv c position) with
    | Except.error _e => Except.error (Abort.exit 1)
    | Except.ok ret =>
      gmtLoop c hb (fun p => generate_move_tree c hb ed pgn_depth p) position
        (normalizeRet ret)

/-- The inner `count_nodes` of `estimate_total_moves` (main.py:84-91):
`nodes = moves; for _ in range(moves): nodes += count_nodes(depth-1, not turn)`. -/
def count_nodes : Nat → Bool → Nat
  | 0, _ => 0
  | depth + 1, turn =>
    let moves := if turn = true then 1 else 3
    (List.range moves).foldl (fun nodes _ => nodes + count_nodes depth (!turn)) moves

/-- `estimate_total_moves` (main.py:78-93): pure, no engine interaction. -/
def estimate_total_moves (pgn_depth : Nat) (starting_turn : Bool) : Nat :=
  count_nodes pgn_depth starting_turn

/-- The children contributed when `add_moves_to_pgn` is run against fresh
(childless) variation nodes: each tree entry in order becomes one child,
holding its recursively emitted subtree. -/
def emitForest : List (MTree M) → List (M × PGNNode M)
  | [] => []
  | MTree.mk m subs :: rest => (m, PGNNode.mk (emitForest subs)) :: emitForest rest

/-- `add_moves_to_pgn` (main.py:148-163) as a function on the node value.
Empty tree: no-op.  Otherwise `add_main_variation(main_move)` inserts the new
child at index 0 (python-chess moves it to the front), the recursion fills
that fresh node, and each remaining entry is appended by `add_variation` in
order, each filled recursively. -/
def add_moves_to_pgn : PGNNode M → List (MTree M) → PGNNode M
  | node, [] => node
  | PGNNode.mk cs, MTree.mk main_move main_variations :: rest =>
    PGNNode.mk ((main_move, PGNNode.mk (emitForest main_variations)) :: cs ++ emitForest rest)

/-- The tail of `main` (main.py:229-243): the output record is emitted and
written only when `generate_move_tree` returned normally; when it aborted via
`exit(1)` the process dies first and no output is produced (`none`). -/
def run_build_and_emit (c : Ctx P M) (hb : Bool) (ed pgn_depth : Nat) (position : P)
    (node : PGNNode M) : Option (PGNNode M) :=
  match generate_move_tree c hb ed pgn_depth position with
  | Except.error _ => none
  | Except.ok (move_tree, _) => some (add_moves_to_pgn node move_tree)

/-- Spec-side predicate (§4.2): every move of the list is legal at its point
in the simulated sequence from `board`. -/
def legalSeq (c : Ctx P M) : P → List M → Bool
  | _, [] => true
  | board, m :: rest => c.is_legal board m && legalSeq c (c.push board m) rest

/-- Projection: the tree of a normal builder result (empty tree on abort). -/
def okTreeOf (r : Except Abort (List (MTree M) × Nat)) : List (MTree M) :=
  match r with
  | Except.ok (t, _) => t
  | Except.error _ => []

/-- Projection: the progress count of a normal builder result (0 on abort). -/
def okCntOf (r : Except Abort (List (MTree M) × Nat)) : Nat :=
  match r with
  | Except.ok (_, n) => n
  | Except.error _ => 0

/-- Spec-side loop (§4.3/§5): candidate lines examined by one engine response,
with `recurse` summing the lines examined below a validated candidate.  Every
examined line counts one, whether or not it validates. -/
def examineLoop (c : Ctx P M) (recurse : P → Option Nat) (position : P) :
    List (Option (List M)) → Option Nat
  | [] => some 0
  | a :: rest =>
    let step : Option Nat :=
      match validateFirstMove c position a with
      | none => some 0
      | some mv => recurse (c.push position mv)
    match step with
    | none => none
    | some subCnt =>
      match examineLoop c recurse position rest with
      | none => none
      | some restCnt => some (subCnt + 1 + restCnt)

/-- Spec-side count (§5): the total number of candidate lines the builder
examines over the whole recursion, `none` when an engine call aborts the run. -/
def linesExamined (c : Ctx P M) (ed : Nat) : Nat → P → Option Nat
  | 0, _ => some 0
  | pgn_depth + 1, position =>
    match c.analyse position ed (mpv c position) with
    | Except.error _ => none
    | Except.ok ret =>
      examineLoop c (fun p => linesExamined c ed pgn_depth p) position (normalizeRet ret)

/-- Length of the longest edge path of a move tree (forest form). -/
def forestDepth : List (MTree M) → Nat
  | [] => 0
  | MTree.mk _ subs :: rest => max (forestDepth subs + 1) (forestDepth rest)

/-! ## Fueled embedding over `Int` depth

`pgn_depth` is a Python `int`, so it can be negative; the base test is the
equality `pgn_depth == 0`, which a negative depth never reaches.  `gmtFuel`
is the same function with the literal `Int` depth and an explicit fuel;
`none` means the recursion did not finish within the given fuel. -/

/-- The candidate loop, fueled variant: `none` (nontermination of a recursive
call) propagates. -/
def gmtLoopF (c : Ctx P M) (hb : Bool)
    (recurse : P → Option (Except Abort (List (MTree M) × Nat))) (position : P) :
    List (Option (List M)) → Option (Except Abort (List (MTree M) × Nat))
  | [] => some (Except.ok ([], 0))
  | a :: rest =>
    let step : Option (Except Abort (List (MTree M) × Nat)) :=
      match validateFirstMove c position a with
      | none => some (Except.ok ([], 0))
      | some mv =>
        match recurse (c.push position mv) with
        | none => none
        | some (Except.error e) => some (Except.error e)
        | some (Except.ok (subs, cnt)) => some (Except.ok ([MTree.mk mv subs], cnt))
    match step with
    | none => none
    | some (Except.error e) => some (Except.error e)
    | some (Except.ok (entries, subCnt)) =>
      match gmtLoopF c hb recurse position rest with
      | none => none
      | some (Except.error e) => some (Except.error e)
      | some (Except.ok (restEntries, restCnt)) =>
        some (Except.ok (entries ++ restEntries, subCnt + (if hb then 1 else 0) + restCnt))

/-- `generate_move_tree` with its depth kept as the Python `int` (so the base
case is the literal `pgn_depth == 0` test) and an explicit fuel bounding the
recursion depth actually unfolded; `none` = the call did not return within
the fuel. -/
def gmtFuel (c : Ctx P M) (hb : Bool) (ed : Nat) :
    Nat → Int → P → Option (Except Abort (List (MTree M) × Nat))
  | 0, _, _ => none
  | fuel + 1, pgn_depth, position =>
    if pgn_depth = 0 then some (Except.ok ([], 0))
    else
      match c.analyse position ed (mpv c position) with
      | Except.error _e => some (Except.error (Abort.exit 1))
      | Except.ok ret =>
        gmtLoopF c hb (fun p => gmtFuel c hb ed fuel (pgn_depth - 1) p) position
          (normalizeRet ret)

/-! ## Store-based embedding (Python object semantics)

Boards are mutable objects; the store is the list of board objects created so
far, and a board reference is an index into it.  `position.copy()` appends a
fresh cell holding the current value; `board.push(m)` mutates a cell in
place.  Reads use `List.getD` with an explicit fallback value `dflt` (never
reached on valid references). -/

/-- The inner validation loop (main.py:121-129) run on the mutable
`board_copy` living at index `i` of the store. -/
def pvLoopSt (c : Ctx P M) (dflt : P) :
    List P → Nat → List M → List M → List P × List M
  | s, _, legal_pv, [] => (s, legal_pv)
  | s, i, legal_pv, m :: rest =>
    if c.is_legal (s.getD i dflt) m then
      pvLoopSt c dflt (s.set i (c.push (s.getD i dflt) m)) i (legal_pv ++ [m]) rest
    else (s, [])

/-- The body of one `for analysis in analyses:` iteration (main.py:118-140),
store-based: `board_copy = position.copy()` appends a cell at index
`s.length`, the validation loop mutates it, and on success
`next_position = position.copy(); next_position.push(move)` appends and
mutates another fresh cell before recursing on it. -/
def gmtStStep (c : Ctx P M) (dflt : P)
    (recurse : List P → Nat → Except Abort (List P × List (MTree M) × Nat))
    (ref : Nat) (a : Option (List M)) (s : List P) :
    Except Abort (List P × List (MTree M) × Nat) :=
  match a with
  | none => Except.ok (s, [], 0)
  | some l =>
    if l.isEmpty then Except.ok (s, [], 0)
    else
      match pvLoopSt c dflt (s ++ [s.getD ref dflt]) s.length [] l with
      | (s2, []) => Except.ok (s2, [], 0)
      | (s2, mv :: _) =>
        match recurse ((s2 ++ [s2.getD ref dflt]).set s2.length
            (c.push ((s2 ++ [s2.getD ref dflt]).getD s2.length dflt) mv)) s2.length with
        | Except.error e => Except.error e
        | Except.ok (s5, subs, cnt) =>
          Except.ok (s5, [MTree.mk mv subs], cnt)

/-- The candidate loop (main.py:117-143), store-based: one `gmtStStep` per
analysis, threading the store, followed by the progress update. -/
def gmtStLoop (c : Ctx P M) (dflt : P) (hb : Bool)
    (recurse : List P → Nat → Except Abort (List P × List (MTree M) × Nat))
    (ref : Nat) :
    List (Option (List M)) → List P → Except Abort (List P × List (MTree M) × Nat)
  | [], s => Except.ok (s, [], 0)
  | a :: rest, s =>
    match gmtStStep c dflt recurse ref a s with
    | Except.error e => Except.error e
    | Except.ok (s', entries, subCnt) =>
      match gmtStLoop c dflt hb recurse ref rest s' with
      | Except.error e => Except.error e
      | Except.ok (s'', restEntries, restCnt) =>
        Except.ok (s'', entries ++ restEntries, subCnt + (if hb then 1 else 0) + restCnt)

/-- `generate_move_tree` with explicit board objects: the input position is
the object at index `ref` of the store `s`; the result carries the final
store. -/
def gmtSt (c : Ctx P M) (dflt : P) (hb : Bool) (ed : Nat) :
    Nat → List P → Nat → Except Abort (List P × List (MTree M) × Nat)
  | 0, s, _ => Except.ok (s, [], 0)
  | pgn_depth + 1, s, ref =>
    match c.analyse (s.getD ref dflt) ed (mpv c (s.getD ref dflt)) with
    | Except.error _e => Except.error (Abort.exit 1)
    | Except.ok ret =>
      gmtStLoop c dflt hb (fun s' r' => gmtSt c dflt hb ed pgn_depth s' r') ref
        (normalizeRet ret) s

/-- Projection: the final store of a normal store-based run ([] on abort). -/
def okStoreOf (r : Except Abort (List P × List (MTree M) × Nat)) : List P :=
  match r with
  | Except.ok (s, _, _) => s
  | Except.error _ => []

/-! ## Concrete contexts for witnesses and counterexamples -/

/-- A Black-to-move position (`multipv = 3`) whose engine returns three
one-move candidates `[1]`, `[2]`, `[3]`, of which only move `2` is legal. -/
def ctx3 : Ctx Unit Nat where
  turn := fun _ => false
  is_legal := fun _ m => decide (m = 2)
  push := fun _ _ => ()
  analyse := fun _ _ _ => Except.ok (EngineRet.many [some [1], some [2], some [3]])

/-- A two-sided world: the position is just the side to move, every move is
legal and flips the side; White gets one candidate line, Black three, all
valid. -/
def ctxAll : Ctx Bool Unit where
  turn := fun p => p
  is_legal := fun _ _ => true
  push := fun p _ => !p
  analyse := fun p _ _ =>
    if p = true then Except.ok (EngineRet.many [some [()]])
    else Except.ok (EngineRet.many [some [()], some [()], some [()]])

/-- The engine answers one valid line at the root position `0` and raises an
`EngineError` (message `"boom"`) at every deeper position. -/
def ctx5 : Ctx Nat Unit where
  turn := fun _ => true
  is_legal := fun _ _ => true
  push := fun p _ => p + 1
  analyse := fun p _ _ =>
    if p = 0 then Except.ok (EngineRet.many [some [()]]) else Except.error "boom"

/-- An engine that always returns one valid one-move line: from a negative
depth the recursion never reaches the `pgn_depth == 0` guard. -/
def ctxDiv : Ctx Unit Unit where
  turn := fun _ => true
  is_legal := fun _ _ => true
  push := fun _ _ => ()
  analyse := fun _ _ _ => Except.ok (EngineRet.many [some [()]])

/-- Board objects are push counters: every move is legal and increments the
board; the engine always proposes the single line `[5]`. -/
def ctx9 : Ctx Nat Nat where
  turn := fun _ => true
  is_legal := fun _ _ => true
  push := fun b _ => b + 1
  analyse := fun _ _ _ => Except.ok (EngineRet.many [some [5]])

/-! ## Basic lemmas -/

lemma pvLoop_eq_legalSeq (c : Ctx P M) :
    ∀ (l : List M) (board : P) (acc : List M),
      pvLoop c board acc l = if legalSeq c board l = true then acc ++ l else [] := by
  intro l
  induction l with
  | nil => intro board acc; simp [pvLoop, legalSeq]
  | cons m rest ih =>
    intro board acc
    simp only [pvLoop, legalSeq]
    by_cases h : c.is_legal board m = true
    · simp only [h, if_true, ih, Bool.true_and]
      by_cases h2 : legalSeq c (c.push board m) rest = true
      · simp [h2]
      · simp [h2]
    · simp [h]

lemma foldl_add_const {α : Type} (k : Nat) :
    ∀ (l : List α) (init : Nat), l.foldl (fun a _ => a + k) init = init + l.length * k := by
  intro l
  induction l with
  | nil => intro init; simp
  | cons x xs ih =>
    intro init
    simp only [List.foldl, ih, List.length_cons]
    ring

lemma count_nodes_succ (d : Nat) (t : Bool) :
    count_nodes (d + 1) t =
      (if t = true then 1 else 3) + (if t = true then 1 else 3) * count_nodes d (!t) := by
  simp only [count_nodes, foldl_add_const, List.length_range]

lemma add_moves_to_pgn_empty_node (l : List (MTree M)) :
    add_moves_to_pgn (PGNNode.mk []) l = PGNNode.mk (emitForest l) := by
  cases l with
  | nil => simp [add_moves_to_pgn, emitForest]
  | cons t rest => cases t with | mk m subs => simp [add_moves_to_pgn, emitForest]

lemma emitForest_eq_map (l : List (MTree M)) :
    emitForest l =
      l.map (fun t => (mtMove t, add_moves_to_pgn (PGNNode.mk []) (mtSubs t))) := by
  induction l with
  | nil => simp [emitForest]
  | cons t rest ih =>
    cases t with
    | mk m subs =>
      simp [emitForest, ih, mtMove, mtSubs, add_moves_to_pgn_empty_node]

/-! ## Candidate-loop lemmas -/

lemma okTreeOf_ok (t : List (MTree M)) (n : Nat) : okTreeOf (Except.ok (t, n)) = t := rfl

lemma okCntOf_ok (t : List (MTree M)) (n : Nat) : okCntOf (Except.ok (t, n)) = n := rfl

lemma gmtLoop_ok_tree (c : Ctx P M) (hb : Bool)
    (recurse : P → Except Abort (List (MTree M) × Nat)) (position : P) :
    ∀ (as : List (Option (List M))) (tree : List (MTree M)) (cnt : Nat),
      gmtLoop c hb recurse position as = Except.ok (tree, cnt) →
      tree = as.filterMap (fun a => (validateFirstMove c position a).map
        (fun m => MTree.mk m (okTreeOf (recurse (c.push position m))))) := by
  intro as
  induction as with
  | nil =>
    intro tree cnt h
    simp only [gmtLoop, Except.ok.injEq, Prod.mk.injEq] at h
    simp [← h.1]
  | cons a rest ih =>
    intro tree cnt h
    rw [gmtLoop] at h
    cases hv : validateFirstMove c position a with
    | none =>
      rw [hv] at h
      simp only at h
      cases hrest : gmtLoop c hb recurse position rest with
      | error e => rw [hrest] at h; cases h
      | ok pr =>
        obtain ⟨rt, rc⟩ := pr
        rw [hrest] at h
        simp only [Except.ok.injEq, Prod.mk.injEq, List.nil_append] at h
        simp only [List.filterMap_cons, hv, Option.map_none']
        rw [← h.1]
        exact ih rt rc hrest
    | some mv =>
      rw [hv] at h
      simp only at h
      cases hr : recurse (c.push position mv) with
      | error e => rw [hr] at h; cases h
      | ok pr1 =>
        obtain ⟨subs, c1⟩ := pr1
        rw [hr] at h
        simp only at h
        cases hrest : gmtLoop c hb recurse position rest with
        | error e => rw [hrest] at h; cases h
        | ok pr =>
          obtain ⟨rt, rc⟩ := pr
          rw [hrest] at h
          simp only [Except.ok.injEq, Prod.mk.injEq, List.singleton_append] at h
          simp only [List.filterMap_cons, hv, Option.map_some', hr, okTreeOf_ok]
          rw [← h.1]
          rw [ih rt rc hrest]

lemma gmtLoop_error_exit (c : Ctx P M) (hb : Bool)
    (recurse : P → Except Abort (List (MTree M) × Nat)) (position : P)
    (hrec : ∀ p a', recurse p = Except.error a' → a' = Abort.exit 1) :
    ∀ (as : List (Option (List M))) (a : Abort),
      gmtLoop c hb recurse position as = Except.error a → a = Abort.exit 1 := by
  intro as
  induction as with
  | nil => intro a h; simp [gmtLoop] at h
  | cons x rest ih =>
    intro a h
    rw [gmtLoop] at h
    cases hv : validateFirstMove c position x with
    | none =>
      rw [hv] at h
      simp only at h
      cases hrest : gmtLoop c hb recurse position rest with
      | error e => rw [hrest] at h; cases h; exact ih _ hrest
      | ok pr => obtain ⟨rt, rc⟩ := pr; rw [hrest] at h; cases h
    | some mv =>
      rw [hv] at h
      simp only at h
      cases hr : recurse (c.push position mv) with
      | error e => rw [hr] at h; cases h; exact hrec _ _ hr
      | ok pr1 =>
        obtain ⟨subs, c1⟩ := pr1
        rw [hr] at h
        simp only at h
        cases hrest : gmtLoop c hb recurse position rest with
        | error e => rw [hrest] at h; cases h; exact ih _ hrest
        | ok pr => obtain ⟨rt, rc⟩ := pr; rw [hrest] at h; cases h

lemma generate_move_tree_error_exit (c : Ctx P M) (hb : Bool) (ed : Nat) :
    ∀ (d : Nat) (pos : P) (a : Abort),
      generate_move_tree c hb ed d pos = Except.error a → a = Abort.exit 1 := by
  intro d
  induction d with
  | zero => intro pos a h; simp [generate_move_tree] at h
  | succ d ih =>
    intro pos a h
    rw [generate_move_tree] at h
    cases han : c.analyse pos ed (mpv c pos) with
    | error e => rw [han] at h; cases h; rfl
    | ok ret =>
      rw [han] at h
      exact gmtLoop_error_exit c hb _ pos (fun p a' h' => ih p a' h') (normalizeRet ret) a h

lemma forestDepth_append (l1 l2 : List (MTree M)) :
    forestDepth (l1 ++ l2) = max (forestDepth l1) (forestDepth l2) := by
  induction l1 with
  | nil => simp [forestDepth]
  | cons t rest ih =>
    cases t with
    | mk m subs => simp [forestDepth, ih, Nat.max_assoc]

lemma gmtLoop_ok_depth (c : Ctx P M) (hb : Bool)
    (recurse : P → Except Abort (List (MTree M) × Nat)) (position : P) (d : Nat)
    (hrec : ∀ p t n, recurse p = Except.ok (t, n) → forestDepth t ≤ d) :
    ∀ (as : List (Option (List M))) (tree : List (MTree M)) (cnt : Nat),
      gmtLoop c hb recurse position as = Except.ok (tree, cnt) →
      forestDepth tree ≤ d + 1 := by
  intro as
  induction as with
  | nil =>
    intro tree cnt h
    simp only [gmtLoop, Except.ok.injEq, Prod.mk.injEq] at h
    rw [← h.1]
    simp [forestDepth]
  | cons x rest ih =>
    intro tree cnt h
    rw [gmtLoop] at h
    cases hv : validateFirstMove c position x with
    | none =>
      rw [hv] at h
      simp only at h
      cases hrest : gmtLoop c hb recurse position rest with
      | error e => rw [hrest] at h; cases h
      | ok pr =>
        obtain ⟨rt, rc⟩ := pr
        rw [hrest] at h
        simp only [Except.ok.injEq, Prod.mk.injEq, List.nil_append] at h
        rw [← h.1]
        exact ih rt rc hrest
    | some mv =>
      rw [hv] at h
      simp only at h
      cases hr : recurse (c.push position mv) with
      | error e => rw [hr] at h; cases h
      | ok pr1 =>
        obtain ⟨subs, c1⟩ := pr1
        rw [hr] at h
        simp only at h
        cases hrest : gmtLoop c hb recurse position rest with
        | error e => rw [hrest] at h; cases h
        | ok pr =>
          obtain ⟨rt, rc⟩ := pr
          rw [hrest] at h
          simp only [Except.ok.injEq, Prod.mk.injEq, List.singleton_append] at h
          rw [← h.1]
          have h1 : forestDepth subs ≤ d := hrec _ _ _ hr
          have h2 : forestDepth rt ≤ d + 1 := ih rt rc hrest
          simp only [forestDepth]
          omega

/-- C1: principal-variation validation is an all-or-nothing total
characterization: the validator yields the first move of the candidate line
exactly when the line is present, nonempty, and every move in it is legal at
its point in the simulated sequence; an illegal move anywhere, or an empty or
absent line, yields `none` (never a truncation to the legal prefix). -/
theorem pv_validation_all_or_nothing (c : Ctx P M) (position : P) (pv : Option (List M)) :
    validateFirstMove c position pv =
      match pv with
      | none => none
      | some [] => none
      | some (m :: rest) =>
        if legalSeq c position (m :: rest) = true then some m else none := by
  cases pv with
  | none => rfl
  | some l =>
    cases l with
    | nil => rfl
    | cons m rest =>
      simp only [validateFirstMove, List.isEmpty_cons, pvLoop_eq_legalSeq, List.nil_append]
      by_cases h : legalSeq c position (m :: rest) = true
      · simp [h]
      · simp [h]

/-- C2: the progress estimator is a pure function satisfying exactly the
specified recurrence: `0` at depth `0` for both sides,
`1 + estimate (d-1) other` when the primary side (White, `true`) is to move,
and `3 + 3 * estimate (d-1) primary` for the other side. -/
theorem estimate_recurrence :
    (∀ t : Bool, estimate_total_moves 0 t = 0) ∧
    (∀ d : Nat, estimate_total_moves (d + 1) true = 1 + estimate_total_moves d false) ∧
    (∀ d : Nat, estimate_total_moves (d + 1) false = 3 + 3 * estimate_total_moves d true) := by
  refine ⟨fun t => rfl, fun d => ?_, fun d => ?_⟩
  · simp [estimate_total_moves, count_nodes_succ]
  · simp [estimate_total_moves, count_nodes_succ]

/-- C4: the record emitter is a no-op on an empty sequence; otherwise the
first entry's move becomes the sole main variation (child at structural
position 0, its subtree emitted recursively into that new node) and every
remaining entry becomes a sibling side-variation child of the same parent, in
rank order, each with its own recursively emitted subtree — never nested
under the main line or under each other.  In particular three leaf entries
yield three sibling edges at one parent. -/
theorem emitter_main_then_siblings :
    (∀ node : PGNNode M, add_moves_to_pgn node [] = node) ∧
    (∀ (cs : List (M × PGNNode M)) (m : M) (v rest : List (MTree M)),
      add_moves_to_pgn (PGNNode.mk cs) (MTree.mk m v :: rest) =
        PGNNode.mk ((m, add_moves_to_pgn (PGNNode.mk []) v) :: cs ++
          rest.map (fun t => (mtMove t, add_moves_to_pgn (PGNNode.mk []) (mtSubs t))))) ∧
    (∀ m1 m2 m3 : M,
      add_moves_to_pgn (PGNNode.mk []) [MTree.mk m1 [], MTree.mk m2 [], MTree.mk m3 []] =
        PGNNode.mk [(m1, PGNNode.mk []), (m2, PGNNode.mk []), (m3, PGNNode.mk [])]) := by
  refine ⟨fun node => by simp [add_moves_to_pgn], fun cs m v rest => ?_,
    fun m1 m2 m3 => by simp [add_moves_to_pgn, emitForest]⟩
  rw [add_moves_to_pgn_empty_node, ← emitForest_eq_map]
  simp [add_moves_to_pgn]

/-- C3: at positive depth the builder processes the engine's candidate lines
in returned rank order and appends one entry exactly per candidate whose
validation succeeds — the candidate's first move together with the subtree of
the recursive call on the successor position — with rejected candidates
simply omitted (rank-compacted, never rank-padded). -/
theorem builder_rank_order_compaction (c : Ctx P M) (hb : Bool) (ed d : Nat) (pos : P)
    (tree : List (MTree M)) (cnt : Nat) (ret : EngineRet (Option (List M)))
    (h : generate_move_tree c hb ed (d + 1) pos = Except.ok (tree, cnt))
    (hret : c.analyse pos ed (mpv c pos) = Except.ok ret) :
    tree = (normalizeRet ret).filterMap (fun a =>
      (validateFirstMove c pos a).map (fun m =>
        MTree.mk m (okTreeOf (generate_move_tree c hb ed d (c.push pos m))))) := by
  rw [generate_move_tree, hret] at h
  exact gmtLoop_ok_tree c hb _ pos (normalizeRet ret) tree cnt h

/-- C3 witness: three candidates of which only the second validates yield the
one-element sequence with the second candidate's first move. -/
theorem builder_rank_order_compaction_witness :
    okTreeOf (generate_move_tree ctx3 true 0 1 ()) = [MTree.mk 2 []] ∧
    ([some [1], some [2], some [3]] : List (Option (List Nat))).filterMap
        (fun a => (validateFirstMove ctx3 () a).map (fun m =>
          MTree.mk m (okTreeOf (generate_move_tree ctx3 true 0 0 (ctx3.push () m))))) =
      [MTree.mk 2 []] := by
  have h := builder_rank_order_compaction ctx3 true 0 0 () [MTree.mk 2 []] 3
    (EngineRet.many [some [1], some [2], some [3]]) rfl rfl
  exact ⟨rfl, h.symm⟩

/-- C5 counterexample: the engine error does NOT propagate unmodified out of
the builder.  With an engine raising `EngineError "boom"` at the root, the
builder catches it and unwinds via `exit(1)` (`Abort.exit 1`), which is not
the unmodified propagation `Abort.raised "boom"` the claim asserts. -/
theorem engine_error_swallowed_counterexample :
    generate_move_tree ctx5 true 0 1 1 = Except.error (Abort.exit 1) ∧
    (Except.error (Abort.exit 1) : Except Abort (List (MTree Unit) × Nat)) ≠
      Except.error (Abort.raised "boom") := by
  refine ⟨rfl, by simp⟩

/-- C5 amended: an `EngineError` from the engine analysis call is caught at
the call site, where the code prints a diagnostic and calls `exit(1)`; the
resulting `SystemExit` abort (exit code 1) propagates out of every enclosing
recursive call with no local recovery and no retry, and no record is emitted
(the run produces no output).  Conjuncts: every abnormal builder result is
`Abort.exit 1` and yields no output record; an engine error at the current
call produces `Abort.exit 1` immediately; an abort of a recursive call
propagates unchanged out of the enclosing candidate loop, skipping all
remaining candidates. -/
theorem engine_error_exits_no_output (c : Ctx P M) (hb : Bool) (ed : Nat) :
    (∀ (d : Nat) (pos : P) (a : Abort),
      generate_move_tree c hb ed d pos = Except.error a →
      a = Abort.exit 1 ∧ ∀ node : PGNNode M, run_build_and_emit c hb ed d pos node = none) ∧
    (∀ (d : Nat) (pos : P) (e : String),
      c.analyse pos ed (mpv c pos) = Except.error e →
      generate_move_tree c hb ed (d + 1) pos = Except.error (Abort.exit 1)) ∧
    (∀ (recurse : P → Except Abort (List (MTree M) × Nat)) (position : P)
      (a : Option (List M)) (mv : M) (err : Abort) (rest : List (Option (List M))),
      validateFirstMove c position a = some mv →
      recurse (c.push position mv) = Except.error err →
      gmtLoop c hb recurse position (a :: rest) = Except.error err) := by
  refine ⟨?_, ?_, ?_⟩
  · intro d pos a h
    refine ⟨generate_move_tree_error_exit c hb ed d pos a h, fun node => ?_⟩
    rw [run_build_and_emit, h]
  · intro d pos e h
    rw [generate_move_tree, h]
  · intro recurse position a mv err rest hv hr
    rw [gmtLoop, hv]
    simp only [hr]

/-- C5 amended, witness: in `ctx5` the engine is fine at the root (depth 2 of
2) but errors on the second, recursive call (depth 1); the run aborts with
exit code 1 and emits no record. -/
theorem engine_error_exits_no_output_witness :
    generate_move_tree ctx5 true 0 2 0 = Except.error (Abort.exit 1) ∧
    Abort.exit 1 = Abort.exit 1 ∧
    run_build_and_emit ctx5 true 0 2 0 (PGNNode.mk []) = none := by
  have h : generate_move_tree ctx5 true 0 2 0 = Except.error (Abort.exit 1) := rfl
  have h2 := (engine_error_exits_no_output ctx5 true 0).1 2 0 (Abort.exit 1) h
  exact ⟨h, h2.1, h2.2 (PGNNode.mk [])⟩

/-- C8: the returned tree's depth never exceeds the requested depth: at depth
0 the builder returns the empty sequence (with no progress updates), and any
normally returned tree has no edge path longer than the depth argument. -/
theorem builder_depth_bounded (c : Ctx P M) (hb : Bool) (ed : Nat) :
    (∀ pos : P, generate_move_tree c hb ed 0 pos = Except.ok ([], 0)) ∧
    (∀ (d : Nat) (pos : P) (tree : List (MTree M)) (cnt : Nat),
      generate_move_tree c hb ed d pos = Except.ok (tree, cnt) →
      forestDepth tree ≤ d) := by
  refine ⟨fun pos => rfl, ?_⟩
  intro d
  induction d with
  | zero =>
    intro pos tree cnt h
    simp only [generate_move_tree, Except.ok.injEq, Prod.mk.injEq] at h
    rw [← h.1]
    simp [forestDepth]
  | succ d ih =>
    intro pos tree cnt h
    rw [generate_move_tree] at h
    cases han : c.analyse pos ed (mpv c pos) with
    | error e => rw [han] at h; cases h
    | ok ret =>
      rw [han] at h
      exact gmtLoop_ok_depth c hb _ pos d (fun p t n hp => ih p t n hp)
        (normalizeRet ret) tree cnt h

/-- C8 witness: a depth-1 run returns a tree of depth at most 1. -/
theorem builder_depth_bounded_witness :
    forestDepth (okTreeOf (generate_move_tree ctx3 true 0 1 ())) ≤ 1 := by
  have h : generate_move_tree ctx3 true 0 1 () = Except.ok ([MTree.mk 2 []], 3) := rfl
  have := (builder_depth_bounded ctx3 true 0).2 1 () [MTree.mk 2 []] 3 h
  simpa [h, okTreeOf_ok] using this

/-! ## Progress-count lemmas (C6, C7) -/

lemma gmtLoop_count_examined (c : Ctx P M)
    (recurse : P → Except Abort (List (MTree M) × Nat)) (recN : P → Option Nat)
    (position : P)
    (hrec : ∀ p t n, recurse p = Except.ok (t, n) → recN p = some n) :
    ∀ (as : List (Option (List M))) (tree : List (MTree M)) (cnt : Nat),
      gmtLoop c true recurse position as = Except.ok (tree, cnt) →
      examineLoop c recN position as = some cnt := by
  intro as
  induction as with
  | nil =>
    intro tree cnt h
    simp only [gmtLoop, Except.ok.injEq, Prod.mk.injEq] at h
    simp [examineLoop, ← h.2]
  | cons x rest ih =>
    intro tree cnt h
    rw [gmtLoop] at h
    rw [examineLoop]
    cases hv : validateFirstMove c position x with
    | none =>
      rw [hv] at h
      simp only at h
      cases hrest : gmtLoop c true recurse position rest with
      | error e => rw [hrest] at h; cases h
      | ok pr =>
        obtain ⟨rt, rc⟩ := pr
        rw [hrest] at h
        simp only [Except.ok.injEq, Prod.mk.injEq] at h
        simp only [ih rt rc hrest]
        simp [← h.2]
    | some mv =>
      rw [hv] at h
      simp only at h
      cases hr : recurse (c.push position mv) with
      | error e => rw [hr] at h; cases h
      | ok pr1 =>
        obtain ⟨subs, c1⟩ := pr1
        rw [hr] at h
        simp only at h
        cases hrest : gmtLoop c true recurse position rest with
        | error e => rw [hrest] at h; cases h
        | ok pr =>
          obtain ⟨rt, rc⟩ := pr
          rw [hrest] at h
          simp only [Except.ok.injEq, Prod.mk.injEq] at h
          simp only [hrec _ _ _ hr, ih rt rc hrest]
          simp [← h.2]

lemma gmtLoop_count_le (c : Ctx P M)
    (recurse : P → Except Abort (List (MTree M) × Nat)) (position : P) (Bnd : Nat)
    (hrec : ∀ m t n, recurse (c.push position m) = Except.ok (t, n) → n ≤ Bnd) :
    ∀ (as : List (Option (List M))) (tree : List (MTree M)) (cnt : Nat),
      gmtLoop c true recurse position as = Except.ok (tree, cnt) →
      cnt ≤ as.length * (1 + Bnd) := by
  intro as
  induction as with
  | nil =>
    intro tree cnt h
    simp only [gmtLoop, Except.ok.injEq, Prod.mk.injEq] at h
    simp [← h.2]
  | cons x rest ih =>
    intro tree cnt h
    rw [gmtLoop] at h
    rw [List.length_cons, Nat.succ_mul]
    cases hv : validateFirstMove c position x with
    | none =>
      rw [hv] at h
      simp only at h
      cases hrest : gmtLoop c true recurse position rest with
      | error e => rw [hrest] at h; cases h
      | ok pr =>
        obtain ⟨rt, rc⟩ := pr
        rw [hrest] at h
        simp at h
        have hrc := ih rt rc hrest
        omega
    | some mv =>
      rw [hv] at h
      simp only at h
      cases hr : recurse (c.push position mv) with
      | error e => rw [hr] at h; cases h
      | ok pr1 =>
        obtain ⟨subs, c1⟩ := pr1
        rw [hr] at h
        simp only at h
        cases hrest : gmtLoop c true recurse position rest with
        | error e => rw [hrest] at h; cases h
        | ok pr =>
          obtain ⟨rt, rc⟩ := pr
          rw [hrest] at h
          simp at h
          have hrc := ih rt rc hrest
          have hc1 := hrec mv subs c1 hr
          omega

lemma gmtLoop_count_exact (c : Ctx P M)
    (recurse : P → Except Abort (List (MTree M) × Nat)) (position : P) (Bnd : Nat)
    (hrec : ∀ m : M, ∃ t, recurse (c.push position m) = Except.ok (t, Bnd)) :
    ∀ as : List (Option (List M)),
      (∀ a ∈ as, (validateFirstMove c position a).isSome = true) →
      ∃ tree, gmtLoop c true recurse position as =
        Except.ok (tree, as.length * (1 + Bnd)) := by
  intro as
  induction as with
  | nil => intro _; exact ⟨[], by simp [gmtLoop]⟩
  | cons x rest ih =>
    intro hval
    obtain ⟨mv, hv⟩ := Option.isSome_iff_exists.mp (hval x (by simp))
    obtain ⟨subs, hr⟩ := hrec mv
    obtain ⟨rt, hrest⟩ := ih (fun a ha => hval a (by simp [ha]))
    refine ⟨MTree.mk mv subs :: rt, ?_⟩
    rw [gmtLoop, hv]
    simp only [hr, hrest]
    have harith : Bnd + 1 + rest.length * (1 + Bnd) = (x :: rest).length * (1 + Bnd) := by
      rw [List.length_cons, Nat.succ_mul]
      ring
    rw [← harith]
    simp

/-- C6: with a progress observer attached, the builder notifies it exactly
once per candidate line returned by the engine at every reached call —
including candidates that fail validation or carry an empty/absent line — so
a normally completed run performs exactly `linesExamined` updates: the total
number of candidate lines examined over the whole recursion. -/
theorem progress_once_per_candidate (c : Ctx P M) (ed : Nat) :
    ∀ (d : Nat) (pos : P) (tree : List (MTree M)) (cnt : Nat),
      generate_move_tree c true ed d pos = Except.ok (tree, cnt) →
      linesExamined c ed d pos = some cnt := by
  intro d
  induction d with
  | zero =>
    intro pos tree cnt h
    simp only [generate_move_tree, Except.ok.injEq, Prod.mk.injEq] at h
    simp [linesExamined, ← h.2]
  | succ d ih =>
    intro pos tree cnt h
    rw [generate_move_tree] at h
    rw [linesExamined]
    cases han : c.analyse pos ed (mpv c pos) with
    | error e => rw [han] at h; cases h
    | ok ret =>
      rw [han] at h
      exact gmtLoop_count_examined c _ _ pos (fun p t n hp => ih p t n hp)
        (normalizeRet ret) tree cnt h

/-- C6 witness: the depth-1 run over three candidates (only one of which
validates) performs exactly three observer notifications. -/
theorem progress_once_per_candidate_witness :
    linesExamined ctx3 0 1 () = some (okCntOf (generate_move_tree ctx3 true 0 1 ())) := by
  have h : generate_move_tree ctx3 true 0 1 () = Except.ok ([MTree.mk 2 []], 3) := rfl
  have := progress_once_per_candidate ctx3 0 1 () [MTree.mk 2 []] 3 h
  simpa [h, okCntOf_ok] using this

/-- C7: provided applying a move flips the side to move, and the engine
returns at most the requested number of candidate lines per call, the number
of progress notifications of a completed run is at most the precomputed
estimate for the starting side; and when every call returns exactly the
requested number of lines and every candidate validates, the run completes
with exactly the estimated count. -/
theorem progress_estimate_bound (c : Ctx P M) (ed : Nat)
    (Hturn : ∀ (p : P) (m : M), c.turn (c.push p m) = !c.turn p) :
    (∀ (d : Nat) (pos : P) (tree : List (MTree M)) (cnt : Nat),
      (∀ (p : P) (ret : EngineRet (Option (List M))),
        c.analyse p ed (mpv c p) = Except.ok ret →
        (normalizeRet ret).length ≤ mpv c p) →
      generate_move_tree c true ed d pos = Except.ok (tree, cnt) →
      cnt ≤ estimate_total_moves d (c.turn pos)) ∧
    (∀ (d : Nat) (pos : P),
      (∀ p : P, ∃ ret, c.analyse p ed (mpv c p) = Except.ok ret ∧
        (normalizeRet ret).length = mpv c p ∧
        ∀ a ∈ normalizeRet ret, (validateFirstMove c p a).isSome = true) →
      ∃ tree, generate_move_tree c true ed d pos =
        Except.ok (tree, estimate_total_moves d (c.turn pos))) := by
  constructor
  · intro d
    induction d with
    | zero =>
      intro pos tree cnt _ h
      simp only [generate_move_tree, Except.ok.injEq, Prod.mk.injEq] at h
      simp [estimate_total_moves, count_nodes, ← h.2]
    | succ d ih =>
      intro pos tree cnt Hle h
      rw [generate_move_tree] at h
      cases han : c.analyse pos ed (mpv c pos) with
      | error e => rw [han] at h; cases h
      | ok ret =>
        rw [han] at h
        have hloop := gmtLoop_count_le c _ pos (estimate_total_moves d (!c.turn pos))
          (fun m t n hp => by
            have := ih (c.push pos m) t n Hle hp
            rwa [Hturn] at this)
          (normalizeRet ret) tree cnt h
        have hlen : (normalizeRet ret).length ≤ mpv c pos := Hle pos ret han
        have hmul : (normalizeRet ret).length * (1 + estimate_total_moves d (!c.turn pos)) ≤
            mpv c pos * (1 + estimate_total_moves d (!c.turn pos)) :=
          Nat.mul_le_mul_right _ hlen
        have hest : mpv c pos * (1 + estimate_total_moves d (!c.turn pos)) =
            estimate_total_moves (d + 1) (c.turn pos) := by
          rw [estimate_total_moves, estimate_total_moves, count_nodes_succ, mpv]
          ring
        omega
  · intro d
    induction d with
    | zero =>
      intro pos _
      exact ⟨[], by simp [generate_move_tree, estimate_total_moves, count_nodes]⟩
    | succ d ih =>
      intro pos Hex
      obtain ⟨ret, hret, hlen, hval⟩ := Hex pos
      rw [generate_move_tree, hret]
      have hrec : ∀ m : M, ∃ t, generate_move_tree c true ed d (c.push pos m) =
          Except.ok (t, estimate_total_moves d (!c.turn pos)) := by
        intro m
        obtain ⟨t, ht⟩ := ih (c.push pos m) Hex
        rw [Hturn] at ht
        exact ⟨t, ht⟩
      obtain ⟨tree, htree⟩ := gmtLoop_count_exact c
        (fun p => generate_move_tree c true ed d p) pos
        (estimate_total_moves d (!c.turn pos)) hrec (normalizeRet ret) hval
      refine ⟨tree, ?_⟩
      show gmtLoop c true (fun p => generate_move_tree c true ed d p) pos (normalizeRet ret) =
        Except.ok (tree, estimate_total_moves (d + 1) (c.turn pos))
      rw [htree, hlen]
      have hest : mpv c pos * (1 + estimate_total_moves d (!c.turn pos)) =
          estimate_total_moves (d + 1) (c.turn pos) := by
        rw [estimate_total_moves, estimate_total_moves, count_nodes_succ, mpv]
        ring
      rw [hest]

/-- C7 witness: in `ctxAll` every call returns exactly the requested number
of all-valid candidate lines, and the depth-2 notification count equals the
estimate (and in particular is bounded by it). -/
theorem progress_estimate_bound_witness :
    okCntOf (generate_move_tree ctxAll true 0 2 true) =
      estimate_total_moves 2 (ctxAll.turn true) ∧
    okCntOf (generate_move_tree ctxAll true 0 2 true) ≤
      estimate_total_moves 2 (ctxAll.turn true) := by
  have Hturn : ∀ (p : Bool) (m : Unit), ctxAll.turn (ctxAll.push p m) = !ctxAll.turn p :=
    fun p m => rfl
  have Hex : ∀ p : Bool, ∃ ret, ctxAll.analyse p 0 (mpv ctxAll p) = Except.ok ret ∧
      (normalizeRet ret).length = mpv ctxAll p ∧
      ∀ a ∈ normalizeRet ret, (validateFirstMove ctxAll p a).isSome = true := by
    intro p
    cases p with
    | false => exact ⟨EngineRet.many [some [()], some [()], some [()]], rfl, rfl, by decide⟩
    | true => exact ⟨EngineRet.many [some [()]], rfl, rfl, by decide⟩
  have Hle : ∀ (p : Bool) (ret : EngineRet (Option (List Unit))),
      ctxAll.analyse p 0 (mpv ctxAll p) = Except.ok ret →
      (normalizeRet ret).length ≤ mpv ctxAll p := by
    intro p ret h
    obtain ⟨ret', hret', hlen', _⟩ := Hex p
    rw [hret'] at h
    cases h
    exact Nat.le_of_eq hlen'
  obtain ⟨tree, htree⟩ := (progress_estimate_bound ctxAll 0 Hturn).2 2 true Hex
  have hb := (progress_estimate_bound ctxAll 0 Hturn).1 2 true tree
    (estimate_total_moves 2 (ctxAll.turn true)) Hle htree
  rw [htree, okCntOf_ok]
  exact ⟨rfl, hb⟩

/-! ## Termination (C10) -/

lemma gmtLoopF_eq_some (c : Ctx P M) (hb : Bool)
    (recF : P → Option (Except Abort (List (MTree M) × Nat)))
    (recurse : P → Except Abort (List (MTree M) × Nat))
    (position : P)
    (hrec : ∀ p, recF p = some (recurse p)) :
    ∀ as : List (Option (List M)),
      gmtLoopF c hb recF position as = some (gmtLoop c hb recurse position as) := by
  intro as
  induction as with
  | nil => rfl
  | cons x rest ih =>
    rw [gmtLoopF, gmtLoop]
    cases hv : validateFirstMove c position x with
    | none =>
      simp only
      rw [ih]
      cases gmtLoop c hb recurse position rest with
      | error e => rfl
      | ok pr => obtain ⟨rt, rc⟩ := pr; rfl
    | some mv =>
      simp only [hrec]
      cases recurse (c.push position mv) with
      | error e => rfl
      | ok pr1 =>
        obtain ⟨subs, c1⟩ := pr1
        simp only
        rw [ih]
        cases gmtLoop c hb recurse position rest with
        | error e => rfl
        | ok pr => obtain ⟨rt, rc⟩ := pr; rfl

lemma gmtFuel_eq_generate (c : Ctx P M) (hb : Bool) (ed : Nat) :
    ∀ (d : Nat) (fuel : Nat) (pos : P), d < fuel →
      gmtFuel c hb ed fuel (d : Int) pos = some (generate_move_tree c hb ed d pos) := by
  intro d
  induction d with
  | zero =>
    intro fuel pos hf
    obtain ⟨f, rfl⟩ : ∃ f, fuel = f + 1 := ⟨fuel - 1, by omega⟩
    rw [gmtFuel]
    simp [generate_move_tree]
  | succ d ih =>
    intro fuel pos hf
    obtain ⟨f, rfl⟩ : ∃ f, fuel = f + 1 := ⟨fuel - 1, by omega⟩
    rw [gmtFuel, generate_move_tree]
    have hne : ¬ ((d + 1 : Nat) : Int) = 0 := by
      exact_mod_cast Nat.succ_ne_zero d
    rw [if_neg hne]
    have hcast : ((d + 1 : Nat) : Int) - 1 = (d : Int) := by push_cast; ring
    rw [hcast]
    cases han : c.analyse pos ed (mpv c pos) with
    | error e => rfl
    | ok ret =>
      exact gmtLoopF_eq_some c hb _ _ pos (fun p => ih f p (by omega)) (normalizeRet ret)

lemma gmtFuel_neg_diverges :
    ∀ (fuel : Nat) (d : Int), d < 0 → gmtFuel ctxDiv false 0 fuel d () = none := by
  intro fuel
  induction fuel with
  | zero => intro d _; rfl
  | succ f ih =>
    intro d hd
    rw [gmtFuel]
    rw [if_neg (by omega)]
    show gmtLoopF ctxDiv false (fun p => gmtFuel ctxDiv false 0 f (d - 1) p) () [some [()]] =
      none
    rw [gmtLoopF]
    have hv : validateFirstMove ctxDiv () (some [()]) = some () := rfl
    rw [hv]
    simp only
    rw [ih (d - 1) (by omega)]

/-- C10: the recursive builder terminates for every depth `d ≥ 0` — within
any fuel larger than `d` the fueled literal-`Int` embedding returns, and its
value is the total structural-recursion embedding's — by well-founded descent
on the depth (each recursive call uses `d - 1` against the base test
`d == 0`).  The precondition is required: from a negative depth the equality
guard is never reached, and with an engine that always supplies a valid
candidate (`ctxDiv`) the recursion exhausts every fuel. -/
theorem builder_terminates_nonneg_depth :
    (∀ (c : Ctx P M) (hb : Bool) (ed : Nat) (d : Nat) (fuel : Nat) (pos : P), d < fuel →
      gmtFuel c hb ed fuel (d : Int) pos = some (generate_move_tree c hb ed d pos)) ∧
    (∀ (fuel : Nat) (d : Int), d < 0 → gmtFuel ctxDiv false 0 fuel d () = none) := by
  exact ⟨fun c hb ed d fuel pos hf => gmtFuel_eq_generate c hb ed d fuel pos hf,
    gmtFuel_neg_diverges⟩

/-- C10 witness: at depth 1 with fuel 2 the fueled run returns the total
embedding's value; at depth `-1` even fuel 5 is exhausted. -/
theorem builder_terminates_nonneg_depth_witness :
    gmtFuel ctx3 true 0 2 (1 : Int) () = some (generate_move_tree ctx3 true 0 1 ()) ∧
    gmtFuel ctxDiv false 0 5 (-1 : Int) () = none := by
  exact ⟨(builder_terminates_nonneg_depth (P := Unit) (M := Nat)).1 ctx3 true 0 1 2 ()
      (by decide),
    (builder_terminates_nonneg_depth (P := Unit) (M := Nat)).2 5 (-1) (by decide)⟩

/-! ## Frame property of the store-based builder (C9) -/

lemma getD_set_ne (l : List P) (i j : Nat) (v dflt : P) (h : ¬ i = j) :
    (l.set i v).getD j dflt = l.getD j dflt := by
  simp [List.getD_eq_getElem?_getD, List.getElem?_set_ne h]

/-- `s'` is an evolution of `s` that created new boards but left every board
already existing in `s` untouched. -/
def presv (dflt : P) (s s' : List P) : Prop :=
  s.length ≤ s'.length ∧ ∀ j, j < s.length → s'.getD j dflt = s.getD j dflt

lemma presv_refl (dflt : P) (s : List P) : presv dflt s s :=
  ⟨Nat.le_refl _, fun _ _ => rfl⟩

lemma presv_trans (dflt : P) (s1 s2 s3 : List P)
    (h12 : presv dflt s1 s2) (h23 : presv dflt s2 s3) : presv dflt s1 s3 :=
  ⟨Nat.le_trans h12.1 h23.1,
   fun j hj => (h23.2 j (Nat.lt_of_lt_of_le hj h12.1)).trans (h12.2 j hj)⟩

lemma presv_append (dflt x : P) (s : List P) : presv dflt s (s ++ [x]) :=
  ⟨by simp, fun j hj => List.getD_append _ _ _ _ hj⟩

lemma presv_set_ge (dflt v : P) (s0 s : List P) (i : Nat)
    (hpre : presv dflt s0 s) (hi : s0.length ≤ i) : presv dflt s0 (s.set i v) := by
  refine ⟨by simpa [List.length_set] using hpre.1, fun j hj => ?_⟩
  rw [getD_set_ne _ _ _ _ _ (by omega), hpre.2 j hj]

lemma pvLoopSt_frame (c : Ctx P M) (dflt : P) :
    ∀ (pv : List M) (s : List P) (i : Nat) (acc : List M),
      (pvLoopSt c dflt s i acc pv).1.length = s.length ∧
      ∀ j, ¬ j = i →
        (pvLoopSt c dflt s i acc pv).1.getD j dflt = s.getD j dflt := by
  intro pv
  induction pv with
  | nil => intro s i acc; exact ⟨rfl, fun _ _ => rfl⟩
  | cons m rest ih =>
    intro s i acc
    rw [pvLoopSt]
    by_cases h : c.is_legal (s.getD i dflt) m = true
    · rw [if_pos h]
      obtain ⟨hl, hp⟩ := ih (s.set i (c.push (s.getD i dflt) m)) i (acc ++ [m])
      refine ⟨by rw [hl]; simp [List.length_set], fun j hj => ?_⟩
      rw [hp j hj, getD_set_ne _ _ _ _ _ (fun he => hj he.symm)]
    · rw [if_neg h]
      exact ⟨rfl, fun _ _ => rfl⟩

lemma presv_pvLoopSt (c : Ctx P M) (dflt : P) (s0 s : List P) (i : Nat)
    (pv acc : List M) (hpre : presv dflt s0 s) (hi : s0.length ≤ i) :
    presv dflt s0 (pvLoopSt c dflt s i acc pv).1 := by
  obtain ⟨hl, hp⟩ := pvLoopSt_frame c dflt pv s i acc
  refine ⟨by rw [hl]; exact hpre.1, fun j hj => ?_⟩
  have hji : ¬ j = i := by
    have := hpre.1
    omega
  rw [hp j hji, hpre.2 j hj]

lemma gmtStStep_frame (c : Ctx P M) (dflt : P)
    (recurse : List P → Nat → Except Abort (List P × List (MTree M) × Nat))
    (hrec : ∀ (s : List P) (r : Nat) (s' : List P) (t : List (MTree M)) (n : Nat),
      recurse s r = Except.ok (s', t, n) → presv dflt s s')
    (ref : Nat) :
    ∀ (a : Option (List M)) (s s' : List P) (t : List (MTree M)) (n : Nat),
      gmtStStep c dflt recurse ref a s = Except.ok (s', t, n) →
      presv dflt s s' := by
  intro a s s' t n h
  cases a with
  | none =>
    simp only [gmtStStep, Except.ok.injEq, Prod.mk.injEq] at h
    rw [← h.1]
    exact presv_refl dflt s
  | some l =>
    cases l with
    | nil =>
      simp only [gmtStStep, List.isEmpty_nil, if_true, Except.ok.injEq, Prod.mk.injEq] at h
      rw [← h.1]
      exact presv_refl dflt s
    | cons m ms =>
      rw [gmtStStep] at h
      simp only [List.isEmpty_cons, Bool.false_eq_true, if_false] at h
      have hps : presv dflt s (s ++ [s.getD ref dflt]) := presv_append _ _ _
      cases hpv : pvLoopSt c dflt (s ++ [s.getD ref dflt]) s.length [] (m :: ms) with
      | mk s2 legal =>
        rw [hpv] at h
        have hs2 : presv dflt s s2 := by
          have := presv_pvLoopSt c dflt s (s ++ [s.getD ref dflt]) s.length (m :: ms) []
            hps (by simp)
          rwa [hpv] at this
        have hs2len : s.length ≤ s2.length := hs2.1
        cases legal with
        | nil =>
          simp only [Except.ok.injEq, Prod.mk.injEq] at h
          rw [← h.1]
          exact hs2
        | cons mv tl =>
          simp only at h
          cases hr : recurse ((s2 ++ [s2.getD ref dflt]).set s2.length
              (c.push ((s2 ++ [s2.getD ref dflt]).getD s2.length dflt) mv)) s2.length with
          | error e => rw [hr] at h; cases h
          | ok pr5 =>
            obtain ⟨s5, subs, n5⟩ := pr5
            rw [hr] at h
            simp only [Except.ok.injEq, Prod.mk.injEq] at h
            have hs4 : presv dflt s ((s2 ++ [s2.getD ref dflt]).set s2.length
                (c.push ((s2 ++ [s2.getD ref dflt]).getD s2.length dflt) mv)) := by
              refine presv_set_ge dflt _ s _ s2.length ?_ hs2len
              exact presv_trans dflt s s2 _ hs2 (presv_append _ _ _)
            rw [← h.1]
            exact presv_trans dflt s _ s5 hs4 (hrec _ _ _ _ _ hr)

lemma gmtStLoop_frame (c : Ctx P M) (dflt : P) (hb : Bool)
    (recurse : List P → Nat → Except Abort (List P × List (MTree M) × Nat))
    (hrec : ∀ (s : List P) (r : Nat) (s' : List P) (t : List (MTree M)) (n : Nat),
      recurse s r = Except.ok (s', t, n) → presv dflt s s')
    (ref : Nat) :
    ∀ (as : List (Option (List M))) (s s'' : List P) (tree : List (MTree M)) (cnt : Nat),
      gmtStLoop c dflt hb recurse ref as s = Except.ok (s'', tree, cnt) →
      presv dflt s s'' := by
  intro as
  induction as with
  | nil =>
    intro s s'' tree cnt h
    rw [gmtStLoop] at h
    simp only [Except.ok.injEq, Prod.mk.injEq] at h
    rw [← h.1]
    exact presv_refl dflt s
  | cons a rest ih =>
    intro s s'' tree cnt h
    rw [gmtStLoop] at h
    cases hstep : gmtStStep c dflt recurse ref a s with
    | error e => rw [hstep] at h; cases h
    | ok pr =>
      obtain ⟨sS, tS, nS⟩ := pr
      rw [hstep] at h
      simp only at h
      have hsS : presv dflt s sS := gmtStStep_frame c dflt recurse hrec ref a s sS tS nS hstep
      cases hrest : gmtStLoop c dflt hb recurse ref rest sS with
      | error e => rw [hrest] at h; cases h
      | ok pr2 =>
        obtain ⟨sR, tR, nR⟩ := pr2
        rw [hrest] at h
        simp only [Except.ok.injEq, Prod.mk.injEq] at h
        rw [← h.1]
        exact presv_trans dflt s sS sR hsS (ih sS sR tR nR hrest)

/-- C9: the store-based builder — boards as mutable objects living in a
store, `copy` appending a fresh cell and `push` mutating a cell — never
mutates the board it was given nor any board that existed before the call:
every move application happens on a freshly appended copy, so after a normal
return every pre-existing cell (in particular the input position at `ref`,
and any sibling branch's board) holds exactly its old value. -/
theorem builder_never_mutates_input (c : Ctx P M) (dflt : P) (hb : Bool) (ed : Nat) :
    ∀ (d : Nat) (s : List P) (ref : Nat) (s' : List P) (tree : List (MTree M)) (cnt : Nat),
      gmtSt c dflt hb ed d s ref = Except.ok (s', tree, cnt) →
      s.length ≤ s'.length ∧
      ∀ j, j < s.length → s'.getD j dflt = s.getD j dflt := by
  intro d
  induction d with
  | zero =>
    intro s ref s' tree cnt h
    simp only [gmtSt, Except.ok.injEq, Prod.mk.injEq] at h
    rw [← h.1]
    exact ⟨Nat.le_refl _, fun _ _ => rfl⟩
  | succ d ih =>
    intro s ref s' tree cnt h
    rw [gmtSt] at h
    cases han : c.analyse (s.getD ref dflt) ed (mpv c (s.getD ref dflt)) with
    | error e => rw [han] at h; cases h
    | ok ret =>
      rw [han] at h
      exact gmtStLoop_frame c dflt hb _ (fun s1 r s2 t n hp => ih s1 r s2 t n hp) ref
        (normalizeRet ret) s s' tree cnt h

/-- C9 witness: a depth-2 store-based run from the one-board store `[0]`
grows the store but leaves cell 0 (the input board) at its old value. -/
theorem builder_never_mutates_input_witness :
    (okStoreOf (gmtSt ctx9 99 true 0 2 [0] 0)).getD 0 99 = 0 ∧
    1 ≤ (okStoreOf (gmtSt ctx9 99 true 0 2 [0] 0)).length := by
  have h : gmtSt ctx9 99 true 0 2 [0] 0 =
      Except.ok ([0, 1, 1, 2, 2], [MTree.mk 5 [MTree.mk 5 []]], 2) := rfl
  have h2 := builder_never_mutates_input ctx9 99 true 0 2 [0] 0 [0, 1, 1, 2, 2]
    [MTree.mk 5 [MTree.mk 5 []]] 2 h
  exact ⟨by rw [h]; exact h2.2 0 (by decide), by rw [h]; exact h2.1⟩

end ChessAnalyzer
